import Mathlib

/-!
Shallow embedding of the m3u-splitter program (src/main.rs) and proofs of the
specification's claims about it.

Rust strings are modelled as `List Char`; `str::find` (which returns the byte
offset of the first match) is modelled as `strFind`, returning the character
index of the first match — for the ASCII needles used by the program the two
agree.  Reading the input file is modelled as receiving the list of its lines
(`BufRead::lines`); I/O errors of the underlying reader are outside the model,
so the pure part of `parse_m3u_file` always returns `Except.ok`.
-/

namespace M3USplit

/-- The single-quote character (written via its code point to keep character
literals simple). -/
def squote : Char := Char.ofNat 39

/-- Model of Rust `str::find(needle)`: index of the first occurrence of
`needle` as a contiguous substring of `hay`, if any. -/
def strFind (needle : List Char) : List Char → Option Nat
  | [] => if needle.isPrefixOf [] then some 0 else none
  | c :: t =>
    if needle.isPrefixOf (c :: t) then some 0
    else (strFind needle t).map (· + 1)

/-- The double-quoted attribute key searched for first: `group-title="`. -/
def dqKey : List Char := "group-title=\"".data

/-- The single-quoted attribute key searched for second: `group-title='`. -/
def sqKey : List Char := "group-title='".data

/-- The single-quote half of `parse_group_name` (the code that runs when the
double-quote branch of the Rust function does not return). -/
def pgnSingle (extinf_line : List Char) : Option (List Char) :=
  match strFind sqKey extinf_line with
  | some s =>
    match strFind [squote] (extinf_line.drop (s + sqKey.length)) with
    | some e => some ((extinf_line.drop (s + sqKey.length)).take e)
    | none => none
  | none => none

/-- Embedding of Rust `parse_group_name`: try `group-title="..."` first; if
that does not yield a value (key absent or closing quote absent), try
`group-title='...'`. -/
def parse_group_name (extinf_line : List Char) : Option (List Char) :=
  match strFind dqKey extinf_line with
  | some s =>
    match strFind ['"'] (extinf_line.drop (s + dqKey.length)) with
    | some e => some ((extinf_line.drop (s + dqKey.length)).take e)
    | none => pgnSingle extinf_line
  | none => pgnSingle extinf_line

/-- The record the parser produces for each playlist item (Rust `Channel`). -/
structure Channel where
  extinf_line : List Char
  url : List Char
  group_name : List Char
deriving DecidableEq, Repr

/-- Model of Rust `str::trim`: drop whitespace from both ends. -/
def trim (l : List Char) : List Char :=
  ((l.dropWhile Char.isWhitespace).reverse.dropWhile Char.isWhitespace).reverse

/-- The descriptor sentinel `#EXTINF:`. -/
def extKey : List Char := "#EXTINF:".data

/-- The fallback group label used when no `group-title` value is found. -/
def unknownLabel : List Char := "Unknown".data

/-- The scanning loop of Rust `parse_m3u_file`: `i` advances by 2 after
consuming a descriptor together with its following line, else by 1. -/
def parseLoop : List (List Char) → List Channel
  | [] => []
  | l :: rest =>
    if extKey.isPrefixOf (trim l) then
      match rest with
      | [] => []
      | nxt :: rest2 =>
        { extinf_line := trim l
          url := trim nxt
          group_name := (parse_group_name (trim l)).getD unknownLabel } :: parseLoop rest2
    else parseLoop rest

/-- Embedding of Rust `parse_m3u_file` on the list of input lines.  The only
error source in the Rust function is reading the file, which is outside the
model; the scan itself never fails. -/
def parse_m3u_file (lines : List (List Char)) : Except String (List Channel) :=
  Except.ok (parseLoop lines)

/-- Rust `char::is_ascii_alphanumeric`. -/
def isAsciiAlnumCh (c : Char) : Bool :=
  ('0' ≤ c && c ≤ '9') || ('A' ≤ c && c ≤ 'Z') || ('a' ≤ c && c ≤ 'z')

/-- The filter of `sanitize_filename`: keep ASCII alphanumerics, `-`, `_`
and space. -/
def keepChar (c : Char) : Bool :=
  isAsciiAlnumCh c || c == '-' || c == '_' || c == ' '

/-- Model of Rust `str::replace(' ', "_")`: every occurrence of the one-char
pattern is replaced by the string `"_"`. -/
def replaceSpaces : List Char → List Char
  | [] => []
  | c :: t => (if c == ' ' then "_".data else [c]) ++ replaceSpaces t

/-- Embedding of Rust `sanitize_filename`: filter, then trim, then replace
spaces by underscores. -/
def sanitize_filename (group_name : List Char) : List Char :=
  replaceSpaces (trim (group_name.filter keepChar))

/-- The write loop of Rust `write_group_file`, modelling the file content as
the accumulated list of written characters (`writeln!` appends the text and a
newline). -/
def writeLoop : List Channel → List Char → List Char
  | [], acc => acc
  | ch :: rest, acc =>
    writeLoop rest (acc ++ ch.extinf_line ++ ['\n'] ++ ch.url ++ ['\n'])

/-- Embedding of Rust `write_group_file`, returning the full content written
to the target file: the `#EXTM3U` header line, then each channel's descriptor
line and url line. -/
def write_group_file (channels : List Channel) : List Char :=
  writeLoop channels ("#EXTM3U".data ++ ['\n'])

/-- One step of the grouping loop in `main`:
`groups.entry(ch.group_name).or_default().push(ch)`, on an association list
that keeps keys in first-insertion order. -/
def addToGroups (groups : List (List Char × List Channel)) (ch : Channel) :
    List (List Char × List Channel) :=
  match groups with
  | [] => [(ch.group_name, [ch])]
  | (k, v) :: rest =>
    if k = ch.group_name then (k, v ++ [ch]) :: rest
    else (k, v) :: addToGroups rest ch

/-- The grouping loop of `main`: fold every parsed channel into the map. -/
def buildGroups (channels : List Channel) : List (List Char × List Channel) :=
  channels.foldl addToGroups []

/-- Lookup in the group mapping (the list of channels stored under a key;
`[]` when the key is absent). -/
def lookupGroup (groups : List (List Char × List Channel)) (k : List Char) :
    List Channel :=
  match groups with
  | [] => []
  | (k2, v) :: rest => if k2 = k then v else lookupGroup rest k

/-- Modelled from the spec (§4.3), for comparison with `sanitize_filename`:
keep only ASCII alphanumerics, `-`, `_` and space; trim leading and trailing
spaces; replace each remaining internal space individually by an
underscore. -/
def sanitize_filename_spec (s : List Char) : List Char :=
  ((((s.filter keepChar).dropWhile (fun c => c == ' ')).reverse.dropWhile
      (fun c => c == ' ')).reverse).map (fun c => if c == ' ' then '_' else c)

/-- Modelled from the spec (§4.4), for comparison with `write_group_file`:
the concatenation of each entry's metadata line and locator, each on its own
line, in sequence order. -/
def bodyOf : List Channel → List Char
  | [] => []
  | ch :: rest => ch.extinf_line ++ ['\n'] ++ ch.url ++ ['\n'] ++ bodyOf rest

/-! ### Lemmas about `strFind` -/

theorem strFind_eq_none (needle hay : List Char)
    (h : ∀ i, needle.isPrefixOf (hay.drop i) = false) : strFind needle hay = none := by
  induction hay with
  | nil => simp [strFind, show needle.isPrefixOf [] = false from by simpa using h 0]
  | cons c t ih =>
    have h0 : needle.isPrefixOf (c :: t) = false := by simpa using h 0
    have ht : ∀ i, needle.isPrefixOf (t.drop i) = false := fun i => by
      simpa using h (i + 1)
    simp [strFind, h0, ih ht]

theorem strFind_eq_some (needle hay : List Char) (n : Nat)
    (hn : needle.isPrefixOf (hay.drop n) = true)
    (hb : ∀ i, i < n → needle.isPrefixOf (hay.drop i) = false) :
    strFind needle hay = some n := by
  induction hay generalizing n with
  | nil =>
    cases n with
    | zero => simp [strFind, show needle.isPrefixOf [] = true from by simpa using hn]
    | succ m =>
      have h1 : needle.isPrefixOf ([] : List Char) = true := by simpa using hn
      have h2 : needle.isPrefixOf ([] : List Char) = false := by
        simpa using hb 0 (Nat.succ_pos m)
      rw [h1] at h2
      exact Bool.noConfusion h2
  | cons c t ih =>
    cases n with
    | zero =>
      simp [strFind, show needle.isPrefixOf (c :: t) = true from by simpa using hn]
    | succ m =>
      have h0 : needle.isPrefixOf (c :: t) = false := by simpa using hb 0 (Nat.succ_pos m)
      have hm : needle.isPrefixOf (t.drop m) = true := by simpa using hn
      have hbm : ∀ i, i < m → needle.isPrefixOf (t.drop i) = false := fun i hi => by
        simpa using hb (i + 1) (Nat.succ_lt_succ hi)
      simp [strFind, h0, ih m hm hbm]

theorem getElem_eq_of_occurrence (needle l : List Char) (i j : Nat)
    (h : needle.isPrefixOf (l.drop i) = true) (hj : j < needle.length) :
    l[i + j]? = needle[j]? := by
  obtain ⟨t, ht⟩ := List.isPrefixOf_iff_prefix.mp h
  have h1 : (l.drop i)[j]? = needle[j]? := by
    rw [← ht, List.getElem?_append]
    simp [hj]
  rw [← List.getElem?_drop]
  exact h1

theorem strFind_eq_none_of_not_mem (needle hay : List Char) (c : Char)
    (hc : c ∈ needle) (h : c ∉ hay) : strFind needle hay = none := by
  apply strFind_eq_none
  intro i
  by_contra hcon
  have htrue : needle.isPrefixOf (hay.drop i) = true := by
    revert hcon
    cases needle.isPrefixOf (hay.drop i) <;> simp
  have hp : needle <+: hay.drop i := List.isPrefixOf_iff_prefix.mp htrue
  exact h ((List.drop_sublist i hay).mem (hp.subset hc))

/-- Finding `needle` in `pre ++ needle ++ rest` yields exactly `pre.length`
when `needle` does not occur at any earlier position (i.e. the displayed
occurrence is the first one). -/
theorem strFind_at_first (needle pre rest : List Char)
    (hfirst : ∀ i < pre.length,
      needle.isPrefixOf ((pre ++ (needle ++ rest)).drop i) = false) :
    strFind needle (pre ++ (needle ++ rest)) = some pre.length := by
  apply strFind_eq_some
  · rw [List.drop_left' rfl]
    exact List.isPrefixOf_iff_prefix.mpr (List.prefix_append _ _)
  · exact hfirst

/-- Finding the closing quote `q` in `X ++ q :: suf` yields `X.length` when
`q ∉ X`. -/
theorem strFind_close (q : Char) (X suf : List Char) (hX : q ∉ X) :
    strFind [q] (X ++ q :: suf) = some X.length := by
  apply strFind_eq_some
  · rw [List.drop_left' rfl]
    simp [List.isPrefixOf]
  · intro i hi
    by_contra hcon
    have htrue : ([q]).isPrefixOf ((X ++ q :: suf).drop i) = true := by
      revert hcon
      cases ([q]).isPrefixOf ((X ++ q :: suf).drop i) <;> simp
    have hline : (X ++ q :: suf)[i + 0]? = some q := by
      rw [getElem_eq_of_occurrence [q] _ i 0 htrue (by simp)]
      simp
    rw [List.getElem?_append] at hline
    simp only [Nat.add_zero, hi, if_true] at hline
    exact hX (List.mem_iff_getElem?.mpr ⟨i, hline⟩)

/-! ### Lemmas about `parse_group_name` -/

theorem parse_group_name_dq_eq (pre X suf : List Char)
    (hfirst : ∀ i < pre.length,
      dqKey.isPrefixOf ((pre ++ (dqKey ++ (X ++ '"' :: suf))).drop i) = false)
    (hX : '"' ∉ X) :
    parse_group_name (pre ++ (dqKey ++ (X ++ '"' :: suf))) = some X := by
  have hfind := strFind_at_first dqKey pre (X ++ '"' :: suf) hfirst
  have hdrop : (pre ++ (dqKey ++ (X ++ '"' :: suf))).drop (pre.length + dqKey.length) =
      X ++ '"' :: suf := by
    rw [show pre ++ (dqKey ++ (X ++ '"' :: suf)) = (pre ++ dqKey) ++ (X ++ '"' :: suf) from
      by simp [List.append_assoc]]
    exact List.drop_left' (by simp)
  simp only [parse_group_name, hfind, hdrop, strFind_close _ _ _ hX]
  rw [List.take_left' rfl]

theorem pgnSingle_sq_eq (pre Y suf : List Char)
    (hfirst : ∀ i < pre.length,
      sqKey.isPrefixOf ((pre ++ (sqKey ++ (Y ++ squote :: suf))).drop i) = false)
    (hY : squote ∉ Y) :
    pgnSingle (pre ++ (sqKey ++ (Y ++ squote :: suf))) = some Y := by
  have hfind := strFind_at_first sqKey pre (Y ++ squote :: suf) hfirst
  have hdrop : (pre ++ (sqKey ++ (Y ++ squote :: suf))).drop (pre.length + sqKey.length) =
      Y ++ squote :: suf := by
    rw [show pre ++ (sqKey ++ (Y ++ squote :: suf)) = (pre ++ sqKey) ++ (Y ++ squote :: suf) from
      by simp [List.append_assoc]]
    exact List.drop_left' (by simp)
  simp only [pgnSingle, hfind, hdrop, strFind_close _ _ _ hY]
  rw [List.take_left' rfl]

theorem parse_group_name_no_dq (l : List Char)
    (h : ∀ i, dqKey.isPrefixOf (l.drop i) = false) :
    parse_group_name l = pgnSingle l := by
  simp only [parse_group_name, strFind_eq_none _ _ h]

theorem parse_group_name_dq_unclosed (pre X : List Char)
    (hfirst : ∀ i < pre.length,
      dqKey.isPrefixOf ((pre ++ (dqKey ++ X)).drop i) = false)
    (hX : '"' ∉ X) :
    parse_group_name (pre ++ (dqKey ++ X)) = pgnSingle (pre ++ (dqKey ++ X)) := by
  have hfind := strFind_at_first dqKey pre X hfirst
  have hdrop : (pre ++ (dqKey ++ X)).drop (pre.length + dqKey.length) = X := by
    rw [show pre ++ (dqKey ++ X) = (pre ++ dqKey) ++ X from by simp [List.append_assoc]]
    exact List.drop_left' (by simp)
  have hnone : strFind ['"'] X = none :=
    strFind_eq_none_of_not_mem _ _ '"' (by simp) hX
  simp only [parse_group_name, hfind, hdrop, hnone]

theorem pgnSingle_eq_none (l : List Char)
    (h : ∀ i, sqKey.isPrefixOf (l.drop i) = false) : pgnSingle l = none := by
  simp only [pgnSingle, strFind_eq_none _ _ h]

theorem parse_group_name_eq_none (l : List Char)
    (h1 : ∀ i, dqKey.isPrefixOf (l.drop i) = false)
    (h2 : ∀ i, sqKey.isPrefixOf (l.drop i) = false) :
    parse_group_name l = none := by
  simp only [parse_group_name, strFind_eq_none _ _ h1, pgnSingle_eq_none l h2]

/-! ### Lemmas about the parse loop -/

theorem parseLoop_shape : ∀ (lines : List (List Char)) (ch : Channel),
    ch ∈ parseLoop lines →
    ∃ i a b, lines[i]? = some a ∧ lines[i + 1]? = some b ∧
      extKey.isPrefixOf (trim a) = true ∧ ch.extinf_line = trim a ∧
      ch.url = trim b ∧ ch.group_name = (parse_group_name (trim a)).getD unknownLabel
  | [], _, h => by simp [parseLoop] at h
  | [l], ch, h => by
    by_cases hd : extKey.isPrefixOf (trim l) = true <;> simp [parseLoop, hd] at h
  | l :: nxt :: rest, ch, h => by
    by_cases hd : extKey.isPrefixOf (trim l) = true
    · simp only [parseLoop, hd, if_true] at h
      rcases List.mem_cons.mp h with hc | hc
      · exact ⟨0, l, nxt, by simp, by simp, hd, by simp [hc], by simp [hc], by simp [hc]⟩
      · obtain ⟨i, a, b, h1, h2, h3, h4, h5, h6⟩ := parseLoop_shape rest ch hc
        exact ⟨i + 2, a, b, by simpa using h1, by simpa using h2, h3, h4, h5, h6⟩
    · have hd2 : extKey.isPrefixOf (trim l) = false := by
        revert hd
        cases extKey.isPrefixOf (trim l) <;> simp
      simp only [parseLoop, hd2, Bool.false_eq_true, if_false] at h
      obtain ⟨i, a, b, h1, h2, h3, h4, h5, h6⟩ := parseLoop_shape (nxt :: rest) ch h
      exact ⟨i + 1, a, b, by simpa using h1, by simpa using h2, h3, h4, h5, h6⟩

/-! ### Lemmas about grouping -/

theorem lookupGroup_addToGroups (g : List (List Char × List Channel))
    (ch : Channel) (k : List Char) :
    lookupGroup (addToGroups g ch) k =
      lookupGroup g k ++ if ch.group_name = k then [ch] else [] := by
  induction g with
  | nil => by_cases hk : ch.group_name = k <;> simp [addToGroups, lookupGroup, hk]
  | cons p rest ih =>
    obtain ⟨k2, v⟩ := p
    by_cases h1 : k2 = ch.group_name
    · by_cases h2 : k2 = k
      · have h3 : ch.group_name = k := h1 ▸ h2
        simp [addToGroups, lookupGroup, h1, h2, h3]
      · have h4 : ¬ ch.group_name = k := fun hh => h2 (h1.trans hh)
        simp [addToGroups, lookupGroup, h1, h2, h4]
    · by_cases h2 : k2 = k
      · have h4 : ¬ ch.group_name = k := fun hh => h1 (h2.trans hh.symm)
        have h5 : ¬ k = ch.group_name := fun hh => h1 (h2.trans hh)
        simp [addToGroups, lookupGroup, h1, h2, h4, h5]
      · simp [addToGroups, lookupGroup, h1, h2, ih]

theorem lookupGroup_foldl (chans : List Channel)
    (acc : List (List Char × List Channel)) (k : List Char) :
    lookupGroup (chans.foldl addToGroups acc) k =
      lookupGroup acc k ++ chans.filter (fun ch => ch.group_name = k) := by
  induction chans generalizing acc with
  | nil => simp
  | cons ch rest ih =>
    rw [List.foldl_cons, ih, lookupGroup_addToGroups]
    by_cases hk : ch.group_name = k <;> simp [hk, List.filter_cons]

theorem keys_addToGroups (g : List (List Char × List Channel)) (ch : Channel) :
    (addToGroups g ch).map Prod.fst =
      if ch.group_name ∈ g.map Prod.fst then g.map Prod.fst
      else g.map Prod.fst ++ [ch.group_name] := by
  induction g with
  | nil => simp [addToGroups]
  | cons p rest ih =>
    obtain ⟨k2, v⟩ := p
    by_cases h1 : k2 = ch.group_name
    · subst h1
      simp [addToGroups]
    · have h3 : ¬ ch.group_name = k2 := fun h => h1 h.symm
      by_cases hmem : ch.group_name ∈ rest.map Prod.fst <;>
        simp [addToGroups, h1, h3, hmem, ih]

theorem nodup_keys_addToGroups (g : List (List Char × List Channel))
    (ch : Channel) (h : (g.map Prod.fst).Nodup) :
    ((addToGroups g ch).map Prod.fst).Nodup := by
  rw [keys_addToGroups]
  by_cases hmem : ch.group_name ∈ g.map Prod.fst
  · simpa [hmem]
  · simp [hmem, List.nodup_append, h]

theorem nodup_keys_foldl (chans : List Channel)
    (acc : List (List Char × List Channel)) (h : (acc.map Prod.fst).Nodup) :
    (((chans.foldl addToGroups acc)).map Prod.fst).Nodup := by
  induction chans generalizing acc with
  | nil => simpa
  | cons ch rest ih => exact ih _ (nodup_keys_addToGroups acc ch h)

/-! ### Lemmas about sanitization -/

theorem replaceSpaces_eq_map (l : List Char) :
    replaceSpaces l = l.map (fun c => if c == ' ' then '_' else c) := by
  induction l with
  | nil => rfl
  | cons c t ih =>
    by_cases hc : c = ' ' <;> simp [replaceSpaces, hc, ih]

theorem isWhitespace_of_keep (c : Char) (h : keepChar c = true) :
    c.isWhitespace = (c == ' ') := by
  by_cases hc : c = ' '
  · subst hc
    decide
  · have h2 : (c == ' ') = false := by simp [hc]
    rw [h2]
    by_contra hw
    have hw2 : c.isWhitespace = true := by
      revert hw
      cases c.isWhitespace <;> simp
    have h3 : ((c = ' ' ∨ c = '\t') ∨ c = '\x0d') ∨ c = '\n' := by
      simpa [Char.isWhitespace] using hw2
    rcases h3 with ((h3 | h3) | h3) | h3
    · exact hc h3
    all_goals subst h3; exact absurd h (by decide)

theorem dropWhile_congr_local (p q : Char → Bool) (l : List Char)
    (h : ∀ c ∈ l, p c = q c) : l.dropWhile p = l.dropWhile q := by
  induction l with
  | nil => rfl
  | cons c t ih =>
    have hc := h c (List.mem_cons_self c t)
    rw [List.dropWhile_cons, List.dropWhile_cons, hc]
    by_cases hq : q c = true
    · simp [hq, ih fun x hx => h x (List.mem_cons_of_mem _ hx)]
    · simp [hq]

theorem mem_of_mem_trim (c : Char) (l : List Char) (h : c ∈ trim l) : c ∈ l := by
  unfold trim at h
  rw [List.mem_reverse] at h
  have h1 := List.Sublist.mem h (List.dropWhile_sublist _)
  rw [List.mem_reverse] at h1
  exact List.Sublist.mem h1 (List.dropWhile_sublist _)

theorem mem_replaceSpaces (c : Char) (l : List Char) (h : c ∈ replaceSpaces l) :
    c = '_' ∨ (c ∈ l ∧ c ≠ ' ') := by
  induction l with
  | nil => simp [replaceSpaces] at h
  | cons d t ih =>
    simp only [replaceSpaces] at h
    rcases List.mem_append.mp h with h1 | h1
    · by_cases hd : (d == ' ') = true
      · left
        simp only [hd, if_true] at h1
        simpa using h1
      · right
        simp only [hd, if_false] at h1
        have hcd : c = d := by simpa using h1
        subst hcd
        exact ⟨List.mem_cons_self _ _, by simpa using hd⟩
    · rcases ih h1 with h2 | h2
      · exact Or.inl h2
      · exact Or.inr ⟨List.mem_cons_of_mem _ h2.1, h2.2⟩

theorem dropWhile_eq_self_of_none (p : Char → Bool) (l : List Char)
    (h : ∀ c ∈ l, p c = false) : l.dropWhile p = l := by
  cases l with
  | nil => rfl
  | cons c t =>
    rw [List.dropWhile_cons, h c (List.mem_cons_self c t)]
    simp

theorem map_eq_self_of_fix (f : Char → Char) (l : List Char)
    (h : ∀ c ∈ l, f c = c) : l.map f = l := by
  induction l with
  | nil => rfl
  | cons c t ih =>
    rw [List.map_cons, h c (List.mem_cons_self c t),
      ih fun x hx => h x (List.mem_cons_of_mem _ hx)]

theorem sanitize_chars (c : Char) (s : List Char) (h : c ∈ sanitize_filename s) :
    keepChar c = true ∧ c ≠ ' ' := by
  unfold sanitize_filename at h
  rcases mem_replaceSpaces c _ h with h1 | ⟨h1, h2⟩
  · subst h1
    exact ⟨by decide, by decide⟩
  · exact ⟨List.of_mem_filter (mem_of_mem_trim _ _ h1), h2⟩

theorem sanitize_of_clean (out : List Char)
    (h : ∀ c ∈ out, keepChar c = true ∧ c ≠ ' ') :
    sanitize_filename out = out := by
  unfold sanitize_filename
  have hw : ∀ c ∈ out, Char.isWhitespace c = false := by
    intro c hc
    rw [isWhitespace_of_keep c (h c hc).1]
    simp [(h c hc).2]
  rw [List.filter_eq_self.mpr (fun c hc => (h c hc).1)]
  have ht : trim out = out := by
    unfold trim
    rw [dropWhile_eq_self_of_none _ _ hw,
      dropWhile_eq_self_of_none _ _ (fun c hc => hw c (List.mem_reverse.mp hc)),
      List.reverse_reverse]
  rw [ht, replaceSpaces_eq_map]
  apply map_eq_self_of_fix
  intro c hc
  simp [(h c hc).2]

/-! ### Lemmas about the writer -/

theorem writeLoop_append (chans : List Channel) (acc : List Char) :
    writeLoop chans acc = acc ++ bodyOf chans := by
  induction chans generalizing acc with
  | nil => simp [writeLoop, bodyOf]
  | cons ch rest ih => simp [writeLoop, bodyOf, ih, List.append_assoc]

theorem all_drops_of_bounded (needle l : List Char) (hne : needle ≠ [])
    (h : ∀ i ≤ l.length, needle.isPrefixOf (l.drop i) = false) :
    ∀ i, needle.isPrefixOf (l.drop i) = false := by
  intro i
  by_cases hi : i ≤ l.length
  · exact h i hi
  · rw [List.drop_of_length_le (by omega)]
    cases needle with
    | nil => exact absurd rfl hne
    | cons c t => rfl

/-! ### The claims -/

/-- C2: for every descriptor line containing `group-title="X"` or
`group-title='X'` — with X possibly empty, possibly containing non-ASCII
characters, possibly containing `&`, and (by its definition as the substring
up to the next matching quote) not containing the delimiting quote —
`parse_group_name` yields exactly X.  The hypotheses say only that the stated
occurrence of the key is its first occurrence in the line and, for the
single-quoted form, that the double-quoted key (tried first) occurs nowhere;
other quote characters may appear anywhere in the line. -/
theorem parse_group_name_extracts_value (pre X suf : List Char) :
    ((∀ i < pre.length,
        dqKey.isPrefixOf ((pre ++ (dqKey ++ (X ++ '"' :: suf))).drop i) = false) →
      '"' ∉ X →
      parse_group_name (pre ++ (dqKey ++ (X ++ '"' :: suf))) = some X) ∧
    ((∀ i ≤ (pre ++ (sqKey ++ (X ++ squote :: suf))).length,
        dqKey.isPrefixOf ((pre ++ (sqKey ++ (X ++ squote :: suf))).drop i) = false) →
     (∀ i < pre.length,
        sqKey.isPrefixOf ((pre ++ (sqKey ++ (X ++ squote :: suf))).drop i) = false) →
      squote ∉ X →
      parse_group_name (pre ++ (sqKey ++ (X ++ squote :: suf))) = some X) := by
  constructor
  · exact fun h1 h2 => parse_group_name_dq_eq pre X suf h1 h2
  · intro h0 h1 h2
    rw [parse_group_name_no_dq _ (all_drops_of_bounded _ _ (by decide) h0)]
    exact pgnSingle_sq_eq pre X suf h1 h2

/-- Witness for C2: extraction of a double-quoted value from a line carrying
an earlier double-quoted attribute, and extraction of a single-quoted value
from the repository's own unit-test line, whose tail carries a double-quoted
attribute. -/
theorem parse_group_name_extracts_value_witness :
    parse_group_name ("#EXTINF:-1 tvg-id=\"c1\" ".data ++
        (dqKey ++ ("Sports".data ++ '"' :: ",Name".data))) = some "Sports".data ∧
    parse_group_name ("#EXTINF:-1 ".data ++
        (sqKey ++ ("News".data ++ squote :: " tvg-id=\"channel2\",Another Channel".data)))
      = some "News".data :=
  ⟨(parse_group_name_extracts_value "#EXTINF:-1 tvg-id=\"c1\" ".data "Sports".data
      ",Name".data).1 (by decide) (by decide),
   (parse_group_name_extracts_value "#EXTINF:-1 ".data "News".data
      " tvg-id=\"channel2\",Another Channel".data).2 (by decide) (by decide) (by decide)⟩

/-- C10: when `group-title="` occurs (first at the stated position) with no
closing double quote after it, `parse_group_name` does not yield the fallback
directly: it proceeds to the single-quoted form, yields its value when a
closed single-quoted form exists (first occurrence at the stated position),
and yields none only when the single-quoted key is absent too.  Quote
characters may appear freely elsewhere in the line. -/
theorem unclosed_double_quote_falls_through (pre X pre2 Y suf2 l : List Char) :
    ((∀ i < pre.length,
        dqKey.isPrefixOf ((pre ++ (dqKey ++ X)).drop i) = false) →
      '"' ∉ X →
      parse_group_name (pre ++ (dqKey ++ X)) = pgnSingle (pre ++ (dqKey ++ X))) ∧
    ((∀ i < pre2.length,
        sqKey.isPrefixOf ((pre2 ++ (sqKey ++ (Y ++ squote :: suf2))).drop i) = false) →
      squote ∉ Y →
      pgnSingle (pre2 ++ (sqKey ++ (Y ++ squote :: suf2))) = some Y) ∧
    ((∀ i ≤ l.length, sqKey.isPrefixOf (l.drop i) = false) → pgnSingle l = none) :=
  ⟨fun h1 h2 => parse_group_name_dq_unclosed pre X h1 h2,
   fun h1 h2 => pgnSingle_sq_eq pre2 Y suf2 h1 h2,
   fun h => pgnSingle_eq_none l (all_drops_of_bounded _ _ (by decide) h)⟩

/-- Witness for C10: on a line with a double-quoted attribute before an
unclosed `group-title="` that is followed by a closed `group-title='B'`,
parsing falls through to the single-quoted form and extracts `B`; a line with
an unclosed double-quoted key and no single-quoted key extracts nothing. -/
theorem unclosed_double_quote_falls_through_witness :
    parse_group_name ("#EXTINF:-1 tvg-id=\"c1\" ".data ++
        (dqKey ++ "unclosed group-title='B',N".data)) =
      pgnSingle ("#EXTINF:-1 tvg-id=\"c1\" ".data ++
        (dqKey ++ "unclosed group-title='B',N".data)) ∧
    pgnSingle ("#EXTINF:-1 tvg-id=\"c1\" group-title=\"unclosed ".data ++
        (sqKey ++ ("B".data ++ squote :: ",N".data))) = some "B".data ∧
    pgnSingle "group-title=\"abc".data = none :=
  ⟨(unclosed_double_quote_falls_through "#EXTINF:-1 tvg-id=\"c1\" ".data
      "unclosed group-title='B',N".data [] [] [] []).1 (by decide) (by decide),
   (unclosed_double_quote_falls_through [] []
      "#EXTINF:-1 tvg-id=\"c1\" group-title=\"unclosed ".data "B".data ",N".data []).2.1
      (by decide) (by decide),
   (unclosed_double_quote_falls_through [] [] [] [] [] "group-title=\"abc".data).2.2
      (by decide)⟩

/-- C7: a descriptor line containing neither quoted form of the `group-title`
key extracts no value, and every channel the parser produces whose descriptor
extracts no value gets the fixed fallback group `Unknown` (so every channel
has a group). -/
theorem missing_group_title_yields_unknown (l : List Char)
    (lines : List (List Char)) (ch : Channel) :
    ((∀ i ≤ l.length, dqKey.isPrefixOf (l.drop i) = false) →
     (∀ i ≤ l.length, sqKey.isPrefixOf (l.drop i) = false) →
      parse_group_name l = none) ∧
    (ch ∈ parseLoop lines → parse_group_name ch.extinf_line = none →
      ch.group_name = unknownLabel) := by
  constructor
  · intro h1 h2
    exact parse_group_name_eq_none l
      (all_drops_of_bounded _ _ (by decide) h1)
      (all_drops_of_bounded _ _ (by decide) h2)
  · intro hmem hnone
    obtain ⟨i, a, b, _, _, _, h4, _, h6⟩ := parseLoop_shape lines ch hmem
    have h7 : parse_group_name (trim a) = none := h4 ▸ hnone
    rw [h6, h7]
    rfl

/-- Witness for C7: the Rust unit-test line without a `group-title` attribute
extracts nothing, and the channel parsed from it carries the group
`Unknown`. -/
theorem missing_group_title_yields_unknown_witness :
    parse_group_name "#EXTINF:8 tvg-id=\"c4\",NoGroup".data = none ∧
    (⟨"#EXTINF:8 tvg,N".data, "http://u".data, unknownLabel⟩ : Channel).group_name
      = unknownLabel :=
  ⟨(missing_group_title_yields_unknown "#EXTINF:8 tvg-id=\"c4\",NoGroup".data []
      ⟨[], [], []⟩).1 (by decide) (by decide),
   (missing_group_title_yields_unknown [] ["#EXTINF:8 tvg,N".data, "http://u".data]
      ⟨"#EXTINF:8 tvg,N".data, "http://u".data, unknownLabel⟩).2 (by decide) (by decide)⟩

/-- C9: the line after a descriptor is consumed as that descriptor's locator
unconditionally — the produced entry's locator is that line trimmed (the
empty string if the line is blank), and scanning resumes only after the pair,
so a `#EXTINF:` line in locator position produces no entry of its own. -/
theorem locator_consumed_unconditionally (d nxt : List Char)
    (rest : List (List Char)) :
    extKey.isPrefixOf (trim d) = true →
    parseLoop (d :: nxt :: rest) =
      { extinf_line := trim d, url := trim nxt,
        group_name := (parse_group_name (trim d)).getD unknownLabel } :: parseLoop rest := by
  intro h
  simp [parseLoop, h]

/-- Witness for C9: a descriptor directly followed by another descriptor
consumes the second one as its locator. -/
theorem locator_consumed_unconditionally_witness :
    extKey.isPrefixOf (trim "#EXTINF:9".data) = true ∧
    parseLoop ["#EXTINF:9".data, "#EXTINF:8".data] =
      { extinf_line := trim "#EXTINF:9".data, url := trim "#EXTINF:8".data,
        group_name := (parse_group_name (trim "#EXTINF:9".data)).getD unknownLabel }
        :: parseLoop [] :=
  ⟨by decide, locator_consumed_unconditionally _ _ _ (by decide)⟩

/-- C8: on an input whose last line is a descriptor with no following line,
the parser returns successfully (never an error from the scan), and every
entry it produces pairs some line with the line after it — so the trailing
descriptor, having no following line, produces no entry. -/
theorem trailing_descriptor_dropped (lines : List (List Char)) (d : List Char)
    (ch : Channel) :
    extKey.isPrefixOf (trim d) = true →
    parse_m3u_file (lines ++ [d]) = Except.ok (parseLoop (lines ++ [d])) ∧
    (ch ∈ parseLoop (lines ++ [d]) →
      ∃ i a b, (lines ++ [d])[i]? = some a ∧ (lines ++ [d])[i + 1]? = some b ∧
        ch.extinf_line = trim a ∧ ch.url = trim b) := by
  intro _
  refine ⟨rfl, fun hmem => ?_⟩
  obtain ⟨i, a, b, h1, h2, _, h4, h5, _⟩ := parseLoop_shape _ ch hmem
  exact ⟨i, a, b, h1, h2, h4, h5⟩

/-- Witness for C8: a two-entry input followed by a trailing descriptor. -/
theorem trailing_descriptor_dropped_witness :
    parse_m3u_file (["#EXTINF:8,C".data, "u".data] ++ ["#EXTINF:9".data]) =
      Except.ok (parseLoop (["#EXTINF:8,C".data, "u".data] ++ ["#EXTINF:9".data])) ∧
    (∃ i a b, (["#EXTINF:8,C".data, "u".data] ++ ["#EXTINF:9".data])[i]? = some a ∧
      (["#EXTINF:8,C".data, "u".data] ++ ["#EXTINF:9".data])[i + 1]? = some b ∧
      (⟨"#EXTINF:8,C".data, "u".data, unknownLabel⟩ : Channel).extinf_line = trim a ∧
      (⟨"#EXTINF:8,C".data, "u".data, unknownLabel⟩ : Channel).url = trim b) :=
  ⟨(trailing_descriptor_dropped ["#EXTINF:8,C".data, "u".data] "#EXTINF:9".data
      ⟨"#EXTINF:8,C".data, "u".data, unknownLabel⟩ (by decide)).1,
   (trailing_descriptor_dropped ["#EXTINF:8,C".data, "u".data] "#EXTINF:9".data
      ⟨"#EXTINF:8,C".data, "u".data, unknownLabel⟩ (by decide)).2 (by decide)⟩

/-- C1 counterexample: the parser stores the descriptor and locator lines
trimmed, so on a descriptor line with surrounding whitespace the stored
`metadata_line` (and locator) differ from the original lines character for
character. -/
theorem parse_not_verbatim_cex :
    parseLoop ["  #EXTINF:9 ".data, " u ".data] =
      [{ extinf_line := "#EXTINF:9".data, url := "u".data,
         group_name := unknownLabel }] ∧
    "#EXTINF:9".data ≠ "  #EXTINF:9 ".data ∧ "u".data ≠ " u ".data := by
  decide

/-- C1 amended: each entry's `metadata_line` equals the original descriptor
line with leading and trailing whitespace removed, and its locator equals the
line immediately following the descriptor with leading and trailing
whitespace removed. -/
theorem parse_lines_trimmed (lines : List (List Char)) (ch : Channel) :
    ch ∈ parseLoop lines →
    ∃ i a b, lines[i]? = some a ∧ lines[i + 1]? = some b ∧
      ch.extinf_line = trim a ∧ ch.url = trim b := by
  intro h
  obtain ⟨i, a, b, h1, h2, _, h4, h5, _⟩ := parseLoop_shape lines ch h
  exact ⟨i, a, b, h1, h2, h4, h5⟩

/-- Witness for the amended C1, on an input with surrounding whitespace. -/
theorem parse_lines_trimmed_witness :
    ∃ i a b, (["  #EXTINF:7 ".data, " loc ".data])[i]? = some a ∧
      (["  #EXTINF:7 ".data, " loc ".data])[i + 1]? = some b ∧
      (⟨"#EXTINF:7".data, "loc".data, unknownLabel⟩ : Channel).extinf_line = trim a ∧
      (⟨"#EXTINF:7".data, "loc".data, unknownLabel⟩ : Channel).url = trim b :=
  parse_lines_trimmed ["  #EXTINF:7 ".data, " loc ".data]
    ⟨"#EXTINF:7".data, "loc".data, unknownLabel⟩ (by decide)

/-- C3: the file written for a group is exactly the `#EXTM3U` header line
followed by, for each entry in order, its metadata line and its locator, each
on its own line, and nothing else. -/
theorem write_group_file_content (chans : List Channel) :
    write_group_file chans = "#EXTM3U".data ++ ['\n'] ++ bodyOf chans := by
  rw [write_group_file, writeLoop_append]

/-- C4: `sanitize_filename` equals the spec's three-stage pipeline — filter
to ASCII alphanumerics, `-`, `_` and space; trim leading and trailing spaces;
replace each remaining internal space individually by an underscore. -/
theorem sanitize_filename_matches_spec (s : List Char) :
    sanitize_filename s = sanitize_filename_spec s := by
  unfold sanitize_filename sanitize_filename_spec
  have hmem : ∀ c ∈ s.filter keepChar, keepChar c = true := fun c hc =>
    List.of_mem_filter hc
  have h1 : trim (s.filter keepChar) =
      (((s.filter keepChar).dropWhile fun c => c == ' ').reverse.dropWhile
        fun c => c == ' ').reverse := by
    unfold trim
    rw [dropWhile_congr_local _ _ (s.filter keepChar)
      (fun c hc => isWhitespace_of_keep c (hmem c hc))]
    congr 1
    apply dropWhile_congr_local
    intro c hc
    exact isWhitespace_of_keep c (hmem c
      (List.Sublist.mem (List.mem_reverse.mp hc) (List.dropWhile_sublist _)))
  rw [h1, replaceSpaces_eq_map]

/-- C5: sanitization is idempotent. -/
theorem sanitize_filename_idempotent (s : List Char) :
    sanitize_filename (sanitize_filename s) = sanitize_filename s :=
  sanitize_of_clean _ (fun c hc => sanitize_chars c s hc)

/-- C6: the group mapping built by the grouping loop has pairwise distinct
keys, and the list stored under any key `k` is exactly the subsequence of
parsed channels whose group is `k`, in source order — so every entry appears
under its own key and under no other, with relative order preserved. -/
theorem groups_partition_entries (chans : List Channel) :
    ((buildGroups chans).map Prod.fst).Nodup ∧
    ∀ k, lookupGroup (buildGroups chans) k =
      chans.filter (fun ch => ch.group_name = k) := by
  constructor
  · exact nodup_keys_foldl chans [] (by simp)
  · intro k
    rw [buildGroups, lookupGroup_foldl]
    simp [lookupGroup]

end M3USplit
